import Mathlib

/-!
Verification of the Vertex Correspondence & Region Painting Engine
(frontend/src/App.tsx and the legacy SimpleApp variant).

Shallow embedding conventions:
* JS numbers holding mesh coordinates are embedded as exact rationals (ℚ);
  `Number.prototype.toFixed` is embedded as `jsToFixed` below.
* JS `Map` objects are embedded as association lists (string keyed table) or
  as recursively built lookup functions returning `Option` (so that the JS
  distinction between an absent key, which yields `undefined`, and a present
  key is preserved).
* `THREE.Color` values are kept syntactically: a color constructed from a CSS
  style string is `CColor.ofStyle s`, one constructed from a number is
  `CColor.ofNum q`.  No claim depends on the numeric rgb components.
* Thrown JS exceptions are embedded as `Except` errors; a `RangeError` from an
  out-of-bounds `DataView`/typed-array access is embedded as
  `STLError.truncated`, the explicit ASCII-STL `Error` as `STLError.format`.
-/

set_option maxRecDepth 4000

/-- A 3D position: the (x, y, z) coordinates of one vertex, as exact rationals. -/
def Pos : Type := ℚ × ℚ × ℚ

instance : DecidableEq Pos := by unfold Pos; infer_instance

instance : Inhabited Pos := ⟨((0 : ℚ), (0 : ℚ), (0 : ℚ))⟩

/-- Left-pad a digit string with zeros up to width `d`
(used to render the fractional part of `toFixed`). -/
def padZeros (d : Nat) (s : String) : String :=
  String.mk (List.replicate (d - s.length) '0') ++ s

/-- `toFixed` on a non-negative rational: round `y * 10^d` half away from zero
(ES spec: pick the larger candidate on ties), then print with `d` digits
after the decimal point.  The rounding `⌊y * 10^d + 1/2⌋` is computed on the
numerator and denominator directly so that it evaluates by kernel
reduction. -/
def jsToFixedNN (d : Nat) (y : ℚ) : String :=
  let m : Nat := ((2 * y.num * 10 ^ d + (y.den : Int)) / (2 * (y.den : Int))).toNat
  if d = 0 then Nat.repr m
  else Nat.repr (m / 10 ^ d) ++ "." ++ padZeros d (Nat.repr (m % 10 ^ d))

/-- Embedding of JS `x.toFixed(d)` on an exact rational input. -/
def jsToFixed (d : Nat) (x : ℚ) : String :=
  if x < 0 then "-" ++ jsToFixedNN d (-x) else jsToFixedNN d x

/-- Canonical key built when ENCODING in the high-precision path
(App.tsx line 251): `x.toFixed(6) + "," + y.toFixed(6) + "," + z.toFixed(6)`. -/
def hpKeyEncode (p : Pos) : String :=
  jsToFixed 6 p.1 ++ "," ++ jsToFixed 6 p.2.1 ++ "," ++ jsToFixed 6 p.2.2

/-- Canonical key built when DECODING (mapping oracle results back) in the
high-precision path (App.tsx line 291). -/
def hpKeyDecode (p : Pos) : String :=
  jsToFixed 6 p.1 ++ "," ++ jsToFixed 6 p.2.1 ++ "," ++ jsToFixed 6 p.2.2

/-- Canonical key built when ENCODING in the legacy path
(SimpleApp line 108): coordinates quantized with `toFixed(4)`. -/
def legacyKeyEncode (p : Pos) : String :=
  jsToFixed 4 p.1 ++ "," ++ jsToFixed 4 p.2.1 ++ "," ++ jsToFixed 4 p.2.2

/-- Canonical key built when constructing `uniqueToFull` in the legacy path
(SimpleApp line 184). -/
def legacyKeyBuild (p : Pos) : String :=
  jsToFixed 4 p.1 ++ "," ++ jsToFixed 4 p.2.1 ++ "," ++ jsToFixed 4 p.2.2

/-- Canonical key built when expanding oracle indices in the legacy path
(SimpleApp line 201). -/
def legacyKeyExpand (p : Pos) : String :=
  jsToFixed 4 p.1 ++ "," ++ jsToFixed 4 p.2.1 ++ "," ++ jsToFixed 4 p.2.2

/-- Lookup in a string-keyed association list; embeds `Map.get`
(first — and, with unique keys, only — matching entry). -/
def lookupStr (m : List (String × Nat)) (k : String) : Option Nat :=
  (m.find? (fun e => e.1 = k)).map (fun e => e.2)

/-- One iteration of the unique-vertex scan: if the key of `p` is already in
the table do nothing, otherwise append it with the next dense canonical index
(`uniqueVertices.set(key, vertexArray.length)`). -/
def buildStep (key : Pos → String) (m : List (String × Nat)) (p : Pos) :
    List (String × Nat) :=
  if (lookupStr m (key p)).isSome then m else m ++ [(key p, m.length)]

/-- The unique-vertex table (`uniqueVertices` in App.tsx lines 244-257):
scan the raw buffer in order, assigning dense canonical indices in
first-seen order. -/
def buildUniqueVertices (key : Pos → String) (pos : List Pos) :
    List (String × Nat) :=
  pos.foldl (buildStep key) []

/-- Number of canonical (deduplicated) vertices, `vertexArray.length`. -/
def uniqueCount (pos : List Pos) : Nat :=
  (buildUniqueVertices hpKeyEncode pos).length

/-- The forward map raw index → canonical index of the high-precision path:
re-quantize position `i` and look it up in the unique-vertex table
(App.tsx lines 287-292).  `none` only for an out-of-range raw index. -/
def forwardMap (pos : List Pos) (i : Nat) : Option Nat :=
  match pos[i]? with
  | some p => lookupStr (buildUniqueVertices hpKeyEncode pos) (hpKeyDecode p)
  | none => none

/-- The reverse map canonical index → list of raw indices
(`reverseMapping` in App.tsx lines 285-300), built by pushing each raw index
`i < n` in ascending order onto the entry of its canonical index.
`none` embeds a key that was never inserted (JS `Map.get` = `undefined`). -/
def buildReverseMapping (f : Nat → Option Nat) : Nat → Nat → Option (List Nat)
  | 0, _ => none
  | Nat.succ n, c =>
    match f n with
    | none => buildReverseMapping f n c
    | some c₀ =>
      if c = c₀ then some ((buildReverseMapping f n c).getD [] ++ [n])
      else buildReverseMapping f n c

/-- The reverse map of the high-precision path for a given raw buffer. -/
def revMapOf (pos : List Pos) : Nat → Option (List Nat) :=
  buildReverseMapping (forwardMap pos) pos.length

/-- `Map.get` on the reverse map at an oracle-supplied (possibly negative)
index: a negative key was never inserted, so it yields `undefined`. -/
def revGetI (m : Nat → Option (List Nat)) (c : Int) : Option (List Nat) :=
  if 0 ≤ c then m c.toNat else none

/-- Region expansion (App.tsx lines 302-311): for each oracle index in order,
append all raw indices of its reverse-map entry; an absent entry
(`undefined`) is skipped. -/
def expandRegion (revGet : Int → Option (List Nat)) : List Int → List Nat
  | [] => []
  | c :: rest => ((revGet c).getD []) ++ expandRegion revGet rest

/-- The forward map of the legacy path: the canonical index of raw index
`i` is the position of its 4-digit quantized key in the deduplicated
`vertArray` (keys are added to the `uniqueVerts` set in first-seen order,
in lockstep with `vertArray.push`, so the table below assigns the same
dense indices). -/
def legacyForwardMap (pos : List Pos) (i : Nat) : Option Nat :=
  match pos[i]? with
  | some p => lookupStr (buildUniqueVertices legacyKeyEncode pos) (legacyKeyEncode p)
  | none => none

/-- Well-formedness of a unique-vertex table: the canonical indices are
exactly `0, 1, …, len-1` in insertion order and the keys are distinct. -/
def TableOk (m : List (String × Nat)) : Prop :=
  m.map Prod.snd = List.range m.length ∧ (m.map Prod.fst).Nodup

/-- A paint region as delivered by the oracle and held in Paint State
(interface `PaintRegion` in App.tsx).  `vertex_indices` holds canonical
indices in an oracle response and raw geometry indices after expansion; the
type is `Int` because nothing in JS constrains an oracle index to be a
non-negative number. -/
structure PaintRegion where
  id : String
  name : String
  color : String
  visible : Bool
  vertex_indices : List Int
  vertex_count : Nat
  vertex_percentage : Option ℚ
deriving DecidableEq

/-- A `THREE.Color`, kept syntactically: constructed either from a numeric
literal or from a CSS style string. -/
inductive CColor where
  | ofNum (q : ℚ)
  | ofStyle (s : String)
deriving DecidableEq

/-- JS `a || b` on an optional string: `undefined` and the empty string are
falsy, any other string is truthy. -/
def jsOr (o : Option String) (d : String) : String :=
  match o with
  | some s => if s = "" then d else s
  | none => d

/-- The color a visible region paints with:
`paintedColors[region.id] || region.color` (App.tsx line 344). -/
def resolvedColor (painted : String → Option String) (r : PaintRegion) : CColor :=
  CColor.ofStyle (jsOr (painted r.id) r.color)

/-- One write of the compositor inner loop (App.tsx lines 347-353):
`if (idx < vertexCount)` guards the write; a negative index passes the guard
but the typed-array store at a negative index is a no-op. -/
def writeIdx (n : Nat) (col : CColor) (buf : List CColor) (idx : Int) :
    List CColor :=
  if idx < (n : Int) then
    (if 0 ≤ idx then buf.set idx.toNat col else buf)
  else buf

/-- Application of one region by the compositor (App.tsx lines 341-354):
invisible regions are skipped wholesale; a visible region overwrites every
one of its in-range raw indices with its resolved color. -/
def applyRegion (n : Nat) (painted : String → Option String)
    (buf : List CColor) (r : PaintRegion) : List CColor :=
  if r.visible then
    r.vertex_indices.foldl (writeIdx n (resolvedColor painted r)) buf
  else buf

/-- The color compositor (`applyColorsToGeometry` core, App.tsx lines
328-354): fill every raw index with the default gray `0x808080`, then apply
the regions in list order. -/
def compositor (n : Nat) (regions : List PaintRegion)
    (painted : String → Option String) : List CColor :=
  regions.foldl (applyRegion n painted) (List.replicate n (CColor.ofNum 0x808080))

/-- The last region in list order that is visible and whose index list
contains raw index `i`: the region whose color the compositor leaves at `i`. -/
def lastVisibleCovering (i : Nat) : List PaintRegion → Option PaintRegion
  | [] => none
  | r :: rest =>
    match lastVisibleCovering i rest with
    | some r' => some r'
    | none =>
      if r.visible = true ∧ (i : Int) ∈ r.vertex_indices then some r else none

/-- A `THREE.BufferGeometry` as far as the engine observes it: the raw
position buffer (one entry per triangle corner) and the optional color
attribute. -/
structure Geometry where
  positions : List Pos
  colorAttr : Option (List CColor)
deriving DecidableEq

/-- `applyColorsToGeometry` (App.tsx lines 325-358): allocate a fresh color
buffer, composite it from the current Paint State, and install it as the
geometry color attribute.  The previous color attribute is never read. -/
def applyColorsToGeometry (g : Geometry) (regions : List PaintRegion)
    (painted : String → Option String) : Geometry :=
  { g with colorAttr := some (compositor g.positions.length regions painted) }

/-- Per-region post-processing of `segmentWithBackend` (App.tsx lines
313-318): replace canonical indices by the expanded raw indices and derive
count and coverage percentage. -/
def mapRegion (revGet : Int → Option (List Nat)) (n : Nat) (r : PaintRegion) :
    PaintRegion :=
  let g := expandRegion revGet r.vertex_indices
  { r with
    vertex_indices := g.map Int.ofNat
    vertex_count := g.length
    vertex_percentage := some ((g.length : ℚ) / (n : ℚ) * 100) }

/-- `toggleRegionVisibility` (App.tsx lines 573-577): flip the `visible`
flag of every region whose id matches, keep everything else. -/
def toggleRegionVisibility (regionId : String) (regions : List PaintRegion) :
    List PaintRegion :=
  regions.map (fun r => if r.id = regionId then { r with visible := !r.visible } else r)

/-- Errors of the STL decoder: `format` embeds the explicit
`Error( ASCII STL not supported... )` throw, `truncated` embeds the
`RangeError` a `DataView`/typed-array access beyond the buffer end throws. -/
inductive STLError where
  | format
  | truncated
deriving DecidableEq

/-- Read a 4-byte little-endian word (the bit pattern; `getUint32` and
`getFloat32` read the same four bytes, and no claim interprets the float
value, so the word is kept as a `Nat`). -/
def readWord32 (buf : List Nat) (off : Nat) : Option Nat :=
  match buf[off]?, buf[off+1]?, buf[off+2]?, buf[off+3]? with
  | some a, some b, some c, some d =>
    some (a + 256 * b + 65536 * c + 16777216 * d)
  | _, _, _, _ => none

/-- Read three consecutive 4-byte words (one vector of three floats). -/
def readVec3 (buf : List Nat) (off : Nat) : Option (Nat × Nat × Nat) :=
  match readWord32 buf off, readWord32 buf (off+4), readWord32 buf (off+8) with
  | some a, some b, some c => some (a, b, c)
  | _, _, _ => none

/-- Flatten one 3-word vector into the output buffer layout. -/
def tripleFlat (t : Nat × Nat × Nat) : List Nat :=
  [t.1, t.2.1, t.2.2]

/-- The triangle loop of `parseSTL` (App.tsx lines 208-229): per triangle
read one normal vector and three vertex positions (advancing 50 bytes per
triangle: 12 normal + 36 vertex + 2 attribute bytes that are skipped without
being read), appending the three vertices and three copies of the normal. -/
def parseTriangles (buf : List Nat) : Nat → Nat → Except STLError (List Nat × List Nat)
  | _, 0 => .ok ([], [])
  | off, Nat.succ k =>
    match readVec3 buf off, readVec3 buf (off+12), readVec3 buf (off+24),
        readVec3 buf (off+36) with
    | some nrm, some a, some b, some c =>
      match parseTriangles buf (off + 50) k with
      | .ok (vs, ns) =>
        .ok (tripleFlat a ++ tripleFlat b ++ tripleFlat c ++ vs,
          tripleFlat nrm ++ tripleFlat nrm ++ tripleFlat nrm ++ ns)
      | .error e => .error e
    | _, _, _, _ => .error STLError.truncated

/-- The ASCII codes of the string `solid`. -/
def solidBytes : List Nat := [115, 111, 108, 105, 100]

/-- The STL decoder `parseSTL` (App.tsx lines 185-236) on a byte buffer:
reject the textual variant by its 5-byte leading signature, read the 4-byte
little-endian triangle count at offset 80, then run the triangle loop.
A buffer shorter than 5 bytes makes the `Uint8Array` header view throw, and
a buffer shorter than 84 bytes makes `getUint32(80)` throw; both are
`truncated`. -/
def parseSTL (buf : List Nat) : Except STLError (List Nat × List Nat) :=
  if buf.length < 5 then .error .truncated
  else if buf.take 5 = solidBytes then .error .format
  else
    match readWord32 buf 80 with
    | none => .error .truncated
    | some count => parseTriangles buf 84 count

/-- The fixed region-id color table of the legacy path
(SimpleApp lines 173-179). -/
def regionColorMap (id : String) : Option CColor :=
  if id = "base" then some (CColor.ofNum 0x8B4513)
  else if id = "legs" then some (CColor.ofNum 0x4682B4)
  else if id = "torso" then some (CColor.ofNum 0xC0C0C0)
  else if id = "arms" then some (CColor.ofNum 0xCD853F)
  else if id = "head" then some (CColor.ofNum 0xF5DEB3)
  else none

/-- The legacy `uniqueToFull` table (SimpleApp lines 182-190), as a lookup
function from quantized key strings to the list of full-array vertex
indices, built by pushing indices in ascending order. -/
def uniqueToFullAux (key : Pos → String) (pos : List Pos) :
    Nat → String → Option (List Nat)
  | 0, _ => none
  | Nat.succ n, s =>
    match pos[n]? with
    | none => uniqueToFullAux key pos n s
    | some p =>
      if s = key p then some ((uniqueToFullAux key pos n s).getD [] ++ [n])
      else uniqueToFullAux key pos n s

/-- `uniqueToFull` for a full legacy vertex list. -/
def uniqueToFullOf (pos : List Pos) : String → Option (List Nat) :=
  uniqueToFullAux legacyKeyBuild pos pos.length

/-- The legacy deduplicated `vertArray` (SimpleApp lines 104-113): keep the
first occurrence of each quantized key. -/
def legacyVertArray (pos : List Pos) : List Pos :=
  (pos.foldl
    (fun acc p =>
      if (legacyKeyEncode p) ∈ acc.1 then acc
      else (acc.1 ++ [legacyKeyEncode p], acc.2 ++ [p]))
    (([] : List String), ([] : List Pos))).2

/-- Painting one legacy region (SimpleApp lines 197-213): for each oracle
index, the guard is only `backendIdx < vertArray.length`; a NEGATIVE index
passes the guard, `vertArray[backendIdx]` is then `undefined`, and reading
`vert[0]` throws a `TypeError` that aborts the handler.  A non-negative
in-range index is re-quantized and its `uniqueToFull` entry (if any) is
painted. -/
def legacyPaintRegion (vertArray : List Pos) (u2f : String → Option (List Nat))
    (col : CColor) : List Int → List CColor → Except String (List CColor)
  | [], buf => .ok buf
  | c :: rest, buf =>
    if c < (vertArray.length : Int) then
      if c < 0 then .error "TypeError"
      else
        let vert := vertArray.getD c.toNat default
        let buf' :=
          match u2f (legacyKeyExpand vert) with
          | some fullIndices => fullIndices.foldl (fun b i => b.set i col) buf
          | none => buf
        legacyPaintRegion vertArray u2f col rest buf'
    else legacyPaintRegion vertArray u2f col rest buf

/-- The legacy region-coloring loop (SimpleApp lines 193-214): per region,
the color is `regionColorMap[region.id] || new THREE.Color(Math.random() *
0xffffff)`; the random stream is an explicit input `rand`, consumed one draw
per region whose id is NOT in the fixed table. -/
def legacyLoop (rand : Nat → ℚ) (vertArray : List Pos)
    (u2f : String → Option (List Nat)) :
    List (String × List Int) → Nat → List CColor → Except String (List CColor)
  | [], _, buf => .ok buf
  | (id, idxs) :: rest, k, buf =>
    match regionColorMap id with
    | some col =>
      match legacyPaintRegion vertArray u2f col idxs buf with
      | .ok buf' => legacyLoop rand vertArray u2f rest k buf'
      | .error e => .error e
    | none =>
      match legacyPaintRegion vertArray u2f
          (CColor.ofNum (rand k * 0xffffff)) idxs buf with
      | .ok buf' => legacyLoop rand vertArray u2f rest (k+1) buf'
      | .error e => .error e

/-- The legacy coloring step (SimpleApp lines 162-214): default fill with
gray `0x808080`, then the region loop. -/
def legacyColors (rand : Nat → ℚ) (n : Nat) (vertArray : List Pos)
    (u2f : String → Option (List Nat)) (regions : List (String × List Int)) :
    Except String (List CColor) :=
  legacyLoop rand vertArray u2f regions 0 (List.replicate n (CColor.ofNum 0x808080))

/-- The oracle reachability indicator (`backendStatus` state). -/
inductive BackendStatus where
  | checking
  | online
  | offline
deriving DecidableEq

/-- Disabled attribute of the upload input inside the upload overlay
(App.tsx line 642): `disabled = isLoading or backendStatus not online`. -/
def uploadOverlayInputDisabled (isLoading : Bool) (bs : BackendStatus) : Bool :=
  isLoading || decide (bs ≠ BackendStatus.online)

/-- Disabled attribute of the file input inside the New Model label
(App.tsx lines 744-749): the element carries NO disabled prop, so the DOM
default `false` applies whatever `isLoading` and `backendStatus` are. -/
def newModelInputDisabled (_isLoading : Bool) (_bs : BackendStatus) : Bool :=
  false

/-- The `modelData` React state (interface `ModelData`). -/
structure ModelDataM where
  name : String
  size : Nat
  geometry : Geometry
  vertexCount : Nat
deriving DecidableEq

/-- The React state of `App` that the painting engine owns. -/
structure AppState where
  modelData : Option ModelDataM
  regions : List PaintRegion
  selectedRegion : String
  paintedColors : String → Option String
  isLoading : Bool
  error : String

/-- `toggleRegionVisibility` as a whole-state transition: the click handler
only calls `setRegions`; every other piece of state is untouched. -/
def toggleRegionVisibilityState (regionId : String) (st : AppState) : AppState :=
  { st with regions := toggleRegionVisibility regionId st.regions }

/-- An upload as the handler sees it: file metadata plus the outcome of
`parseSTL` followed by the centering/scaling steps, summarized as either an
STL error or the final raw position buffer. -/
structure FileInput where
  name : String
  size : Nat
  parsed : Except STLError (List Pos)

/-- The outcome of the `fetch` to the segmentation oracle: the transport
may fail (oracle unreachable), the HTTP status may be non-ok, the body may
fail to parse as JSON, or a JSON body arrives. -/
inductive FetchOutcome where
  | netError
  | httpError (statusText : String)
  | badJson
  | ok (success : Bool) (regions : Option (List PaintRegion)) (error : Option String)

/-- `segmentWithBackend` (App.tsx lines 239-322) given a geometry and a
fetch outcome: throw on transport failure, non-ok status, unparsable JSON,
or `success: false` (with `data.error || Segmentation failed`); a success
body with no `regions` array makes the `for..of` throw a `TypeError`.
On success, expand every region through the reverse map. -/
def segmentWithBackend (pos : List Pos) (fetch : FetchOutcome) :
    Except String (List PaintRegion) :=
  match fetch with
  | .netError => .error "Failed to fetch"
  | .httpError st => .error ("Backend error: " ++ st)
  | .badJson => .error "Unexpected token in JSON"
  | .ok success regions? err =>
    if success = false then .error (jsOr err "Segmentation failed")
    else
      match regions? with
      | none => .error "TypeError: backendRegions is not iterable"
      | some rs =>
        .ok (rs.map (mapRegion (revGetI (revMapOf pos)) pos.length))

/-- The initial coloring applied on upload (App.tsx lines 414-438): default
light gray `0xcccccc`, then every (visible) region paints its raw indices
with its base color. -/
def initialColors (n : Nat) (regions : List PaintRegion) : List CColor :=
  regions.foldl
    (fun buf r => r.vertex_indices.foldl (writeIdx n (CColor.ofStyle r.color)) buf)
    (List.replicate n (CColor.ofNum 0xcccccc))

/-- `handleFileUpload` (App.tsx lines 366-562): set the loading flag and
clear the error, then run the try-block — parse, segment, and only after
both succeed mutate regions, geometry colors, model data, selection and
painted overrides.  The catch-block records the error message; the
finally-block clears the loading flag.  The embedding mirrors the
control-flow order: the first Paint-State mutation (`setRegions`) happens
strictly after `segmentWithBackend` has returned successfully. -/
def handleFileUpload (file : Option FileInput) (fetch : FetchOutcome)
    (st : AppState) : AppState :=
  match file with
  | none => st
  | some f =>
    let st1 : AppState := { st with isLoading := true, error := "" }
    let tryBlock : Except String AppState :=
      match f.parsed with
      | .error .format => .error "ASCII STL not supported yet. Please use binary STL."
      | .error .truncated => .error "RangeError: Offset is outside the bounds of the DataView"
      | .ok pos =>
        match segmentWithBackend pos fetch with
        | .error e => .error e
        | .ok backendRegions =>
          let visibleRegions := backendRegions.map (fun r => { r with visible := true })
          let geom : Geometry :=
            { positions := pos, colorAttr := some (initialColors pos.length visibleRegions) }
          .ok { st1 with
            regions := visibleRegions
            modelData := some
              { name := f.name, size := f.size, geometry := geom,
                vertexCount := pos.length }
            selectedRegion :=
              match visibleRegions with
              | [] => st1.selectedRegion
              | r :: _ => r.id
            paintedColors := fun _ => none }
    match tryBlock with
    | .ok st2 => { st2 with isLoading := false }
    | .error e => { st1 with error := e, isLoading := false }

/-! Concrete fixtures used by witnesses and counterexamples. -/

/-- A raw buffer with a single vertex at the origin. -/
def posSingle : List Pos := [((0 : ℚ), (0 : ℚ), (0 : ℚ))]

/-- A raw buffer with three corners, the first two geometrically coincident. -/
def posW : List Pos :=
  [((0 : ℚ), (0 : ℚ), (0 : ℚ)), ((0 : ℚ), (0 : ℚ), (0 : ℚ)),
    ((1 : ℚ), (0 : ℚ), (0 : ℚ))]

/-- A sample region. -/
def regionA : PaintRegion :=
  { id := "a", name := "Arm", color := "#ffffff", visible := true,
    vertex_indices := [0, 1], vertex_count := 2, vertex_percentage := none }

/-- `regionA` with its visibility flipped. -/
def regionAToggled : PaintRegion := { regionA with visible := false }

/-- A visible red region covering raw indices 0 and 1. -/
def regionRed : PaintRegion :=
  { id := "a", name := "Red", color := "#ff0000", visible := true,
    vertex_indices := [0, 1], vertex_count := 2, vertex_percentage := none }

/-- A visible green region covering raw index 1 only. -/
def regionGreen : PaintRegion :=
  { id := "b", name := "Green", color := "#00ff00", visible := true,
    vertex_indices := [1], vertex_count := 1, vertex_percentage := none }

/-- Two overlapping regions, red before green in list order. -/
def regionsW : List PaintRegion := [regionRed, regionGreen]

/-- Sample overrides: region `a` is overridden with gold. -/
def paintedW : String → Option String :=
  fun id => if id = "a" then some "#ffd700" else none

/-- A geometry with no color attribute yet. -/
def geomW : Geometry := { positions := posSingle, colorAttr := none }

/-- The same positions with a stale color attribute installed. -/
def geomW2 : Geometry := { positions := posSingle, colorAttr := some [] }

/-- A random stream that always yields 0. -/
def randZero : Nat → ℚ := fun _ => 0

/-- A random stream that always yields 1. -/
def randOne : Nat → ℚ := fun _ => 1

/-- A legacy oracle answer with one region whose id is not in the fixed
legacy color table. -/
def legacyRegionsW : List (String × List Int) := [("cape", [0])]

/-- A 132-byte buffer: 80 header bytes, little-endian triangle count 1, and
48 bytes of triangle data — 2 bytes short of the declared 134. -/
def buf132 : List Nat :=
  List.replicate 80 0 ++ [1, 0, 0, 0] ++ List.replicate 48 7

/-- A loaded model over `posSingle`. -/
def mdW : ModelDataM :=
  { name := "m.stl", size := 10,
    geometry := { positions := posSingle, colorAttr := some [CColor.ofNum 0x808080] },
    vertexCount := 1 }

/-- An app state with a previously loaded, painted model. -/
def stW : AppState :=
  { modelData := some mdW, regions := [regionA], selectedRegion := "a",
    paintedColors := fun _ => none, isLoading := false, error := "" }

/-- A new upload whose STL parse succeeds. -/
def fileW : FileInput := { name := "m2.stl", size := 20, parsed := .ok posSingle }

/-! Helper lemmas. -/

theorem getElem?_isSome_iff {α : Type} {l : List α} {i : Nat} :
    l[i]?.isSome = true ↔ i < l.length := by
  constructor
  · intro h
    cases hl : l[i]? with
    | none => rw [hl] at h; simp at h
    | some a => exact (List.getElem?_eq_some.mp hl).1
  · intro h
    rw [List.getElem?_eq_getElem h]
    rfl

theorem writeIdx_length (n : Nat) (col : CColor) (buf : List CColor) (idx : Int) :
    (writeIdx n col buf idx).length = buf.length := by
  unfold writeIdx
  split
  · split
    · exact List.length_set buf idx.toNat col
    · rfl
  · rfl

theorem foldl_writeIdx_length (n : Nat) (col : CColor) :
    ∀ (l : List Int) (buf : List CColor),
      (l.foldl (writeIdx n col) buf).length = buf.length := by
  intro l
  induction l with
  | nil => intro buf; rfl
  | cons idx rest ih =>
    intro buf
    simp only [List.foldl_cons]
    rw [ih, writeIdx_length]

theorem writeIdx_getElem? (n : Nat) (col : CColor) (buf : List CColor) (idx : Int)
    (i : Nat) (hbuf : buf.length = n) (hi : i < n) :
    (writeIdx n col buf idx)[i]? = if idx = (i : Int) then some col else buf[i]? := by
  unfold writeIdx
  by_cases hlt : idx < (n : Int)
  · simp only [hlt, if_true]
    by_cases hnn : 0 ≤ idx
    · simp only [hnn, if_true]
      rw [List.getElem?_set]
      by_cases he : idx = (i : Int)
      · have : idx.toNat = i := by omega
        simp [this, he, hbuf, hi]
      · have : idx.toNat ≠ i := by omega
        simp [this, he]
    · have he : idx ≠ (i : Int) := by omega
      simp [hnn, he]
  · have he : idx ≠ (i : Int) := by omega
    simp [hlt, he]

theorem foldl_writeIdx_getElem? (n : Nat) (col : CColor) :
    ∀ (l : List Int) (buf : List CColor), buf.length = n → ∀ i, i < n →
      (l.foldl (writeIdx n col) buf)[i]? =
        if (i : Int) ∈ l then some col else buf[i]? := by
  intro l
  induction l with
  | nil => intro buf _ i _; simp
  | cons idx rest ih =>
    intro buf hbuf i hi
    simp only [List.foldl_cons]
    rw [ih (writeIdx n col buf idx) (by rw [writeIdx_length]; exact hbuf) i hi]
    rw [writeIdx_getElem? n col buf idx i hbuf hi]
    by_cases hm : (i : Int) ∈ rest
    · simp [hm, List.mem_cons]
    · by_cases he : idx = (i : Int)
      · simp [hm, he, List.mem_cons]
      · have : ¬ (i : Int) ∈ idx :: rest := by
          intro hc
          rcases List.mem_cons.mp hc with h | h
          · exact he h.symm
          · exact hm h
        simp [hm, he, this]

theorem applyRegion_getElem? (n : Nat) (painted : String → Option String)
    (buf : List CColor) (r : PaintRegion) (i : Nat)
    (hbuf : buf.length = n) (hi : i < n) :
    (applyRegion n painted buf r)[i]? =
      if r.visible = true ∧ (i : Int) ∈ r.vertex_indices
      then some (resolvedColor painted r) else buf[i]? := by
  unfold applyRegion
  by_cases hv : r.visible
  · simp only [hv, if_true]
    rw [foldl_writeIdx_getElem? n (resolvedColor painted r) r.vertex_indices buf hbuf i hi]
    by_cases hm : (i : Int) ∈ r.vertex_indices
    · simp [hm]
    · simp [hm]
  · simp [hv]

theorem applyRegion_length (n : Nat) (painted : String → Option String)
    (buf : List CColor) (r : PaintRegion) :
    (applyRegion n painted buf r).length = buf.length := by
  unfold applyRegion
  split
  · exact foldl_writeIdx_length n _ r.vertex_indices buf
  · rfl

theorem foldl_applyRegion_getElem? (n : Nat) (painted : String → Option String) :
    ∀ (regions : List PaintRegion) (buf : List CColor), buf.length = n →
      ∀ i, i < n →
      (regions.foldl (applyRegion n painted) buf)[i]? =
        match lastVisibleCovering i regions with
        | some r => some (resolvedColor painted r)
        | none => buf[i]? := by
  intro regions
  induction regions with
  | nil => intro buf _ i _; rfl
  | cons r rest ih =>
    intro buf hbuf i hi
    simp only [List.foldl_cons]
    rw [ih (applyRegion n painted buf r)
      (by rw [applyRegion_length]; exact hbuf) i hi]
    have hcons : lastVisibleCovering i (r :: rest) =
        match lastVisibleCovering i rest with
        | some r' => some r'
        | none =>
          if r.visible = true ∧ (i : Int) ∈ r.vertex_indices then some r else none := rfl
    rw [hcons]
    cases hlv : lastVisibleCovering i rest with
    | some r' => rfl
    | none =>
      simp only []
      rw [applyRegion_getElem? n painted buf r i hbuf hi]
      by_cases hc : r.visible = true ∧ (i : Int) ∈ r.vertex_indices
      · simp [hc]
      · simp [hc]

theorem compositor_length (n : Nat) (regions : List PaintRegion)
    (painted : String → Option String) :
    (compositor n regions painted).length = n := by
  unfold compositor
  have : ∀ (rs : List PaintRegion) (buf : List CColor),
      (rs.foldl (applyRegion n painted) buf).length = buf.length := by
    intro rs
    induction rs with
    | nil => intro buf; rfl
    | cons r rest ih =>
      intro buf
      simp only [List.foldl_cons]
      rw [ih, applyRegion_length]
  rw [this]
  exact List.length_replicate n _

theorem jsOr_eq_getD (o : Option String) (d : String) (h : o ≠ some "") :
    jsOr o d = o.getD d := by
  unfold jsOr
  cases o with
  | none => rfl
  | some s =>
    have : s ≠ "" := fun hc => h (by rw [hc])
    simp [this]

theorem paintedW_ne_empty : ∀ id, paintedW id ≠ some "" := by
  intro id
  unfold paintedW
  split
  · decide
  · decide

theorem lookupStr_eq_none_iff {m : List (String × Nat)} {k : String} :
    lookupStr m k = none ↔ ∀ e ∈ m, e.1 ≠ k := by
  unfold lookupStr
  rw [Option.map_eq_none', List.find?_eq_none]
  constructor
  · intro h e he hk
    exact (h e he) (by simp [hk])
  · intro h e he
    simp [h e he]

theorem lookupStr_mem {m : List (String × Nat)} {k : String} {v : Nat}
    (h : lookupStr m k = some v) : (k, v) ∈ m := by
  unfold lookupStr at h
  cases hf : m.find? (fun e => e.1 = k) with
  | none => rw [hf] at h; simp at h
  | some ent =>
    rw [hf] at h
    simp only [Option.map_some'] at h
    have hp := List.find?_some hf
    have he1 : ent.1 = k := by simpa using hp
    have hm := List.mem_of_find?_eq_some hf
    have hent : ent = (k, v) := by
      cases ent with
      | mk a b =>
        simp only at he1 h
        injection h with h2
        rw [he1, h2]
    rw [hent] at hm
    exact hm

theorem mem_lookupStr : ∀ {m : List (String × Nat)} {k : String} {v : Nat},
    (m.map Prod.fst).Nodup → (k, v) ∈ m → lookupStr m k = some v := by
  intro m
  induction m with
  | nil => intro k v _ h; simp at h
  | cons e rest ih =>
    intro k v hnd hm
    rw [List.map_cons] at hnd
    have hnd' := List.nodup_cons.mp hnd
    by_cases he : e.1 = k
    · have hfind : lookupStr (e :: rest) k = some e.2 := by
        unfold lookupStr
        rw [List.find?_cons_of_pos _ (by simp [he])]
        rfl
      rcases List.mem_cons.mp hm with h | h
      · rw [hfind, ← h]
      · exfalso
        have hkm : k ∈ rest.map Prod.fst := by
          have := List.mem_map_of_mem Prod.fst h
          simpa using this
        exact hnd'.1 (by rw [he]; exact hkm)
    · have hstep : lookupStr (e :: rest) k = lookupStr rest k := by
        unfold lookupStr
        rw [List.find?_cons_of_neg _ (by simp [he])]
      rcases List.mem_cons.mp hm with h | h
      · exact absurd (congrArg Prod.fst h.symm) he
      · rw [hstep]
        exact ih hnd'.2 h

theorem snd_val_lt {m : List (String × Nat)} {k : String} {v : Nat}
    (hV : m.map Prod.snd = List.range m.length) (h : (k, v) ∈ m) : v < m.length := by
  have : v ∈ m.map Prod.snd := by
    have := List.mem_map_of_mem Prod.snd h
    simpa using this
  rw [hV] at this
  exact List.mem_range.mp this

theorem snd_val_inj {m : List (String × Nat)} {k₁ k₂ : String} {v : Nat}
    (hV : m.map Prod.snd = List.range m.length)
    (h₁ : (k₁, v) ∈ m) (h₂ : (k₂, v) ∈ m) : k₁ = k₂ := by
  obtain ⟨i₁, hl₁, hg₁⟩ := List.mem_iff_getElem.mp h₁
  obtain ⟨i₂, hl₂, hg₂⟩ := List.mem_iff_getElem.mp h₂
  have e₁ : v = i₁ := by
    have hv : (m.map Prod.snd)[i₁]? = some v := by
      rw [List.getElem?_map, List.getElem?_eq_getElem hl₁, hg₁]
      rfl
    rw [hV, List.getElem?_range (by
      rw [← List.length_range m.length, ← hV, List.length_map]; exact hl₁)] at hv
    injection hv with hv
    exact hv.symm
  have e₂ : v = i₂ := by
    have hv : (m.map Prod.snd)[i₂]? = some v := by
      rw [List.getElem?_map, List.getElem?_eq_getElem hl₂, hg₂]
      rfl
    rw [hV, List.getElem?_range (by
      rw [← List.length_range m.length, ← hV, List.length_map]; exact hl₂)] at hv
    injection hv with hv
    exact hv.symm
  have hii : i₁ = i₂ := by omega
  subst hii
  exact congrArg Prod.fst (hg₁.symm.trans hg₂)

theorem tableOk_buildStep (key : Pos → String) {m : List (String × Nat)} (p : Pos)
    (h : TableOk m) : TableOk (buildStep key m p) := by
  unfold buildStep
  by_cases hl : (lookupStr m (key p)).isSome = true
  · rw [if_pos hl]
    exact h
  · rw [if_neg hl]
    have hnone : lookupStr m (key p) = none := by
      cases hx : lookupStr m (key p) with
      | none => rfl
      | some v => rw [hx] at hl; simp at hl
    have hnotin : key p ∉ m.map Prod.fst := by
      intro hc
      obtain ⟨e, he, hek⟩ := List.mem_map.mp hc
      exact (lookupStr_eq_none_iff.mp hnone e he) hek
    constructor
    · rw [List.map_append, h.1]
      simp [List.range_succ]
    · rw [List.map_append]
      rw [List.nodup_append]
      refine ⟨h.2, by simp, ?_⟩
      intro x hx hx'
      simp only [List.map_cons, List.map_nil, List.mem_singleton] at hx'
      rw [hx'] at hx
      exact hnotin hx

theorem tableOk_buildU (key : Pos → String) (pos : List Pos) :
    TableOk (buildUniqueVertices key pos) := by
  have main : ∀ (ps : List Pos) (m : List (String × Nat)), TableOk m →
      TableOk (ps.foldl (buildStep key) m) := by
    intro ps
    induction ps with
    | nil => intro m h; exact h
    | cons q rest ih =>
      intro m h
      simp only [List.foldl_cons]
      exact ih _ (tableOk_buildStep key q h)
  exact main pos [] ⟨rfl, List.nodup_nil⟩

theorem lookupStr_append_left {m m' : List (String × Nat)} {k : String} {v : Nat}
    (h : lookupStr m k = some v) : lookupStr (m ++ m') k = some v := by
  unfold lookupStr at h ⊢
  rw [List.find?_append]
  cases hf : m.find? (fun e => e.1 = k) with
  | none => rw [hf] at h; simp at h
  | some e =>
    rw [hf] at h
    simp [h]

theorem buildStep_preserves (key : Pos → String) {m : List (String × Nat)}
    {k : String} {v : Nat} (p : Pos) (h : lookupStr m k = some v) :
    lookupStr (buildStep key m p) k = some v := by
  unfold buildStep
  split
  · exact h
  · exact lookupStr_append_left h

theorem foldl_buildStep_preserves (key : Pos → String) :
    ∀ (ps : List Pos) (m : List (String × Nat)) (k : String) (v : Nat),
      lookupStr m k = some v →
      lookupStr (ps.foldl (buildStep key) m) k = some v := by
  intro ps
  induction ps with
  | nil => intro m k v h; exact h
  | cons q rest ih =>
    intro m k v h
    simp only [List.foldl_cons]
    exact ih _ k v (buildStep_preserves key q h)

theorem buildStep_self (key : Pos → String) (m : List (String × Nat)) (p : Pos) :
    (lookupStr (buildStep key m p) (key p)).isSome = true := by
  unfold buildStep
  by_cases hl : (lookupStr m (key p)).isSome = true
  · rw [if_pos hl]
    exact hl
  · rw [if_neg hl]
    have hnone : lookupStr m (key p) = none := by
      cases hx : lookupStr m (key p) with
      | none => rfl
      | some v => rw [hx] at hl; simp at hl
    have hfnone : m.find? (fun e => e.1 = key p) = none := by
      unfold lookupStr at hnone
      exact Option.map_eq_none'.mp hnone
    unfold lookupStr
    rw [List.find?_append, hfnone, Option.none_or]
    rw [List.find?_cons_of_pos _ (by simp)]
    rfl

theorem buildU_present (key : Pos → String) :
    ∀ (ps : List Pos) (m : List (String × Nat)) (p : Pos), p ∈ ps →
      (lookupStr (ps.foldl (buildStep key) m) (key p)).isSome = true := by
  intro ps
  induction ps with
  | nil => intro m p h; simp at h
  | cons q rest ih =>
    intro m p h
    rcases List.mem_cons.mp h with h | h
    · subst h
      obtain ⟨v, hv⟩ := Option.isSome_iff_exists.mp (buildStep_self key m p)
      simp only [List.foldl_cons]
      rw [foldl_buildStep_preserves key rest _ _ v hv]
      rfl
    · simp only [List.foldl_cons]
      exact ih _ p h

theorem buildU_origin (key : Pos → String) :
    ∀ (ps : List Pos) (m : List (String × Nat)) (e : String × Nat),
      e ∈ ps.foldl (buildStep key) m → e ∈ m ∨ ∃ p ∈ ps, key p = e.1 := by
  intro ps
  induction ps with
  | nil => intro m e h; exact Or.inl h
  | cons q rest ih =>
    intro m e h
    simp only [List.foldl_cons] at h
    rcases ih _ e h with h' | ⟨p, hp, hk⟩
    · unfold buildStep at h'
      split at h'
      · exact Or.inl h'
      · rcases List.mem_append.mp h' with h'' | h''
        · exact Or.inl h''
        · have he : e = (key q, m.length) := by simpa using h''
          exact Or.inr ⟨q, List.mem_cons_self _ _, by rw [he]⟩
    · exact Or.inr ⟨p, List.mem_cons_of_mem _ hp, hk⟩

theorem forwardMap_isSome {pos : List Pos} {i : Nat} (h : i < pos.length) :
    (forwardMap pos i).isSome = true := by
  unfold forwardMap
  rw [List.getElem?_eq_getElem h]
  have hm : pos[i] ∈ pos := List.getElem_mem h
  exact buildU_present hpKeyEncode pos [] pos[i] hm

theorem forwardMap_lt {pos : List Pos} {i c : Nat} (h : forwardMap pos i = some c) :
    c < uniqueCount pos := by
  unfold forwardMap at h
  cases hp : pos[i]? with
  | none => rw [hp] at h; simp at h
  | some p =>
    rw [hp] at h
    exact snd_val_lt (tableOk_buildU hpKeyEncode pos).1 (lookupStr_mem h)

theorem forwardMap_lt_length {pos : List Pos} {i : Nat} {c : Nat}
    (h : forwardMap pos i = some c) : i < pos.length := by
  unfold forwardMap at h
  cases hp : pos[i]? with
  | none => rw [hp] at h; simp at h
  | some p => exact (List.getElem?_eq_some.mp hp).1

theorem buildReverseMapping_eq (f : Nat → Option Nat) :
    ∀ (n : Nat) (c : Nat),
      buildReverseMapping f n c =
        (if ((List.range n).filter (fun i => f i = some c)) = []
         then none
         else some ((List.range n).filter (fun i => f i = some c))) := by
  intro n
  induction n with
  | zero => intro c; simp [buildReverseMapping]
  | succ n ih =>
    intro c
    have hunfold : buildReverseMapping f (n+1) c =
        match f n with
        | none => buildReverseMapping f n c
        | some c₀ =>
          if c = c₀ then some ((buildReverseMapping f n c).getD [] ++ [n])
          else buildReverseMapping f n c := rfl
    rw [hunfold, List.range_succ, List.filter_append]
    cases hf : f n with
    | none =>
      have hfil : List.filter (fun i => f i = some c) [n] = [] := by simp [hf]
      rw [hfil, List.append_nil]
      exact ih c
    | some c₀ =>
      show (if c = c₀ then some ((buildReverseMapping f n c).getD [] ++ [n])
        else buildReverseMapping f n c) = _
      by_cases hc : c = c₀
      · subst hc
        rw [if_pos rfl]
        have hfil : List.filter (fun i => f i = some c) [n] = [n] := by simp [hf]
        rw [hfil, ih c]
        by_cases hemp : (List.range n).filter (fun i => f i = some c) = []
        · rw [hemp]
          simp
        · rw [if_neg hemp, if_neg (by simp)]
          rfl
      · rw [if_neg hc]
        have hcc : c₀ ≠ c := fun hx => hc hx.symm
        have hfil : List.filter (fun i => f i = some c) [n] = [] := by
          simp [hf, hcc]
        rw [hfil, List.append_nil]
        exact ih c

theorem revMapOf_mem {pos : List Pos} {i c : Nat} (h : forwardMap pos i = some c) :
    ∃ l, revMapOf pos c = some l ∧ i ∈ l := by
  have hi : i < pos.length := forwardMap_lt_length h
  have hmem : i ∈ (List.range pos.length).filter
      (fun j => forwardMap pos j = some c) := by
    rw [List.mem_filter]
    exact ⟨List.mem_range.mpr hi, by simp [h]⟩
  unfold revMapOf
  rw [buildReverseMapping_eq]
  have hne : (List.range pos.length).filter (fun j => forwardMap pos j = some c) ≠ [] :=
    fun hcon => by rw [hcon] at hmem; simp at hmem
  rw [if_neg hne]
  exact ⟨_, rfl, hmem⟩

theorem revMapOf_nonempty {pos : List Pos} {c : Nat} (h : c < uniqueCount pos) :
    ∃ l, revMapOf pos c = some l ∧ l ≠ [] := by
  have hOk := tableOk_buildU hpKeyEncode pos
  have hc : c < (buildUniqueVertices hpKeyEncode pos).length := h
  have hsnd : (buildUniqueVertices hpKeyEncode pos)[c].2 = c := by
    have hv : ((buildUniqueVertices hpKeyEncode pos).map Prod.snd)[c]? = some c := by
      rw [hOk.1]
      exact List.getElem?_range (by
        rw [← List.length_range (buildUniqueVertices hpKeyEncode pos).length, ← hOk.1,
          List.length_map]
        exact hc)
    rw [List.getElem?_map, List.getElem?_eq_getElem hc] at hv
    simp only [Option.map_some'] at hv
    injection hv
  have hpair : ((buildUniqueVertices hpKeyEncode pos)[c].1, c)
      ∈ buildUniqueVertices hpKeyEncode pos := by
    have := List.getElem_mem hc
    rw [show (buildUniqueVertices hpKeyEncode pos)[c]
        = ((buildUniqueVertices hpKeyEncode pos)[c].1,
            (buildUniqueVertices hpKeyEncode pos)[c].2) from rfl, hsnd] at this
    exact this
  rcases buildU_origin hpKeyEncode pos []
      ((buildUniqueVertices hpKeyEncode pos)[c].1, c) hpair with h' | ⟨p, hp, hk⟩
  · simp at h'
  · obtain ⟨ip, hip, hgp⟩ := List.mem_iff_getElem.mp hp
    have hfwd : forwardMap pos ip = some c := by
      unfold forwardMap
      rw [List.getElem?_eq_getElem hip, hgp]
      show lookupStr (buildUniqueVertices hpKeyEncode pos) (hpKeyEncode p) = some c
      rw [hk]
      exact mem_lookupStr hOk.2 hpair
    obtain ⟨l, hl, hmem⟩ := revMapOf_mem hfwd
    exact ⟨l, hl, fun hnil => by rw [hnil] at hmem; simp at hmem⟩

theorem revMapOf_getD_length (pos : List Pos) (c : Nat) :
    ((revMapOf pos c).getD []).length
      = ((List.range pos.length).filter (fun i => forwardMap pos i = some c)).length := by
  unfold revMapOf
  rw [buildReverseMapping_eq]
  by_cases h : (List.range pos.length).filter (fun i => forwardMap pos i = some c) = []
  · rw [if_pos h, h]
    rfl
  · rw [if_neg h]
    rfl

theorem sum_map_add_nat {α : Type} (f g : α → Nat) :
    ∀ (l : List α), (l.map (fun x => f x + g x)).sum = (l.map f).sum + (l.map g).sum := by
  intro l
  induction l with
  | nil => rfl
  | cons a rest ih =>
    simp only [List.map_cons, List.sum_cons, ih]
    omega

theorem sum_map_ite_eq_count {α : Type} [DecidableEq α] (c : α) :
    ∀ (l : List α), (l.map (fun x => if x = c then 1 else 0)).sum = l.count c := by
  intro l
  induction l with
  | nil => rfl
  | cons a rest ih =>
    simp only [List.map_cons, List.sum_cons, ih, List.count_cons, beq_iff_eq]
    by_cases h : a = c
    · simp [h, Nat.add_comm]
    · simp [h]

theorem count_range_nat (c₀ : Nat) : ∀ n, (List.range n).count c₀ = if c₀ < n then 1 else 0 := by
  intro n
  induction n with
  | zero => simp
  | succ n ih =>
    rw [List.range_succ, List.count_append, ih, List.count_singleton]
    by_cases h1 : c₀ = n
    · subst h1
      simp
    · have hne : (n == c₀) = false := by
        simp only [beq_eq_false_iff_ne]
        omega
      rw [hne]
      by_cases h2 : c₀ < n
      · have : c₀ < n + 1 := by omega
        simp [h2, this]
      · have : ¬ c₀ < n + 1 := by omega
        simp [h2, this]

theorem sum_fibers (f : Nat → Option Nat) (m : Nat) :
    ∀ (n : Nat), (∀ i, i < n → ∃ c, f i = some c ∧ c < m) →
      ((List.range m).map
        (fun c => ((List.range n).filter (fun i => f i = some c)).length)).sum = n := by
  intro n
  induction n with
  | zero => intro _; simp
  | succ n ih =>
    intro h
    obtain ⟨c₀, hf, hc₀⟩ := h n (Nat.lt_succ_self n)
    have hstep : ∀ c : Nat,
        ((List.range (n+1)).filter (fun i => f i = some c)).length
          = ((List.range n).filter (fun i => f i = some c)).length
            + (if c = c₀ then 1 else 0) := by
      intro c
      rw [List.range_succ, List.filter_append, List.length_append]
      congr 1
      by_cases hc : c = c₀
      · subst hc
        simp [hf]
      · have hcc : c₀ ≠ c := fun hx => hc hx.symm
        have hfil : List.filter (fun i => f i = some c) [n] = [] := by
          simp [hf, hcc]
        rw [hfil]
        simp [hc]
    rw [List.map_congr_left (fun c _ => hstep c), sum_map_add_nat,
      sum_map_ite_eq_count c₀ (List.range m), count_range_nat c₀ m, if_pos hc₀,
      ih (fun i hi => h i (Nat.lt_trans hi (Nat.lt_succ_self n)))]

theorem buildU_lookup_inj (key : Pos → String) (pos : List Pos) {p q : Pos}
    (hp : p ∈ pos) (_hq : q ∈ pos) :
    (lookupStr (buildUniqueVertices key pos) (key p)
      = lookupStr (buildUniqueVertices key pos) (key q)) ↔ key p = key q := by
  constructor
  · intro h
    obtain ⟨v, hv⟩ := Option.isSome_iff_exists.mp (buildU_present key pos [] p hp)
    have hv' : lookupStr (buildUniqueVertices key pos) (key q) = some v := by
      rw [← h]
      exact hv
    exact snd_val_inj (tableOk_buildU key pos).1 (lookupStr_mem hv) (lookupStr_mem hv')
  · intro h
    rw [h]

theorem count_expandRegion (revGet : Int → Option (List Nat)) (r : Nat) :
    ∀ (idxs : List Int),
      (expandRegion revGet idxs).count r
        = (idxs.map (fun c => ((revGet c).getD []).count r)).sum := by
  intro idxs
  induction idxs with
  | nil => rfl
  | cons c rest ih =>
    simp only [expandRegion, List.count_append, List.map_cons, List.sum_cons, ih]

theorem count_filter_range (p : Nat → Bool) (r : Nat) :
    ∀ n, ((List.range n).filter p).count r = if r < n ∧ p r = true then 1 else 0 := by
  intro n
  induction n with
  | zero => simp
  | succ n ih =>
    rw [List.range_succ, List.filter_append, List.count_append, ih]
    by_cases hp : p n = true
    · have hfil : List.filter p [n] = [n] := by simp [hp]
      rw [hfil, List.count_singleton]
      by_cases hr : r = n
      · subst hr
        have hbeq : (r == r) = true := by simp
        rw [hbeq]
        have h1 : ¬ (r < r ∧ p r = true) := fun hcon => absurd hcon.1 (Nat.lt_irrefl r)
        have h2 : r < r + 1 ∧ p r = true := ⟨Nat.lt_succ_self r, hp⟩
        simp [h1, h2]
      · have hbeq : (n == r) = false := by
          simp only [beq_eq_false_iff_ne]
          omega
        rw [hbeq]
        have hiff : (r < n + 1 ∧ p r = true) ↔ (r < n ∧ p r = true) := by
          constructor
          · rintro ⟨h, hq⟩; exact ⟨by omega, hq⟩
          · rintro ⟨h, hq⟩; exact ⟨by omega, hq⟩
        simp [hiff]
    · have hfil : List.filter p [n] = [] := by simp [hp]
      rw [hfil, List.count_nil]
      by_cases hr : r = n
      · subst hr
        simp [hp]
      · have hiff : (r < n + 1 ∧ p r = true) ↔ (r < n ∧ p r = true) := by
          constructor
          · rintro ⟨h, hq⟩; exact ⟨by omega, hq⟩
          · rintro ⟨h, hq⟩; exact ⟨by omega, hq⟩
        simp [hiff]

theorem count_entry (pos : List Pos) (c' : Int) (r : Nat) (c : Int)
    (hc : 0 ≤ c) (hf : forwardMap pos r = some c.toNat) (hr : r < pos.length) :
    ((revGetI (revMapOf pos) c').getD []).count r = if c' = c then 1 else 0 := by
  unfold revGetI
  by_cases hneg : 0 ≤ c'
  · rw [if_pos hneg]
    unfold revMapOf
    rw [buildReverseMapping_eq]
    by_cases hemp : (List.range pos.length).filter
        (fun i => forwardMap pos i = some c'.toNat) = []
    · rw [if_pos hemp]
      have hne : c' ≠ c := by
        intro hq
        subst hq
        have hmem : r ∈ (List.range pos.length).filter
            (fun i => forwardMap pos i = some c'.toNat) := by
          rw [List.mem_filter]
          exact ⟨List.mem_range.mpr hr, by simp [hf]⟩
        rw [hemp] at hmem
        simp at hmem
      simp [hne]
    · rw [if_neg hemp]
      show ((List.range pos.length).filter
          (fun i => forwardMap pos i = some c'.toNat)).count r = _
      rw [count_filter_range]
      by_cases hcc : c' = c
      · subst hcc
        simp [hr, hf]
      · have hfr : ¬ (forwardMap pos r = some c'.toNat) := by
          rw [hf]
          intro hq
          injection hq with hq
          apply hcc
          omega
        simp [hfr, hcc]
  · rw [if_neg hneg]
    have hne : c' ≠ c := by omega
    simp [hne]

/-! Claim theorems. -/

/-- C5: canonicalization in `segmentWithBackend` — the forward map is total
(every raw index has exactly one canonical index), `reverseMap[forwardMap i]`
contains `i`, every canonical index has a non-empty reverse entry, and the
reverse-map cardinalities sum to the raw vertex count. -/
theorem canonicalization_invariants (pos : List Pos) :
    (∀ i, i < pos.length → ∃! c, forwardMap pos i = some c)
    ∧ (∀ i c, forwardMap pos i = some c → ∃ l, revMapOf pos c = some l ∧ i ∈ l)
    ∧ (∀ c, c < uniqueCount pos → ∃ l, revMapOf pos c = some l ∧ l ≠ [])
    ∧ ((List.range (uniqueCount pos)).map
        (fun c => ((revMapOf pos c).getD []).length)).sum = pos.length := by
  refine ⟨?_, fun i c h => revMapOf_mem h, fun c h => revMapOf_nonempty h, ?_⟩
  · intro i hi
    obtain ⟨c, hc⟩ := Option.isSome_iff_exists.mp (forwardMap_isSome hi)
    refine ⟨c, hc, ?_⟩
    intro c' hc'
    rw [hc] at hc'
    injection hc' with h
    exact h.symm
  · rw [List.map_congr_left (fun c _ => revMapOf_getD_length pos c)]
    exact sum_fibers (forwardMap pos) (uniqueCount pos) pos.length
      (fun i hi => by
        obtain ⟨c, hc⟩ := Option.isSome_iff_exists.mp (forwardMap_isSome hi)
        exact ⟨c, hc, forwardMap_lt hc⟩)

/-- C5 witness: on a 3-corner buffer with two coincident corners, raw index
0 sits in the reverse entry of its canonical index, and the reverse-map
cardinalities sum to 3. -/
theorem canonicalization_invariants_witness :
    (∃ l, revMapOf posW 0 = some l ∧ (0 : Nat) ∈ l)
    ∧ ((List.range (uniqueCount posW)).map
        (fun c => ((revMapOf posW c).getD []).length)).sum = posW.length :=
  ⟨(canonicalization_invariants posW).2.1 0 0 (by decide),
    (canonicalization_invariants posW).2.2.2⟩

/-- C7: the quantization used to build the unique-vertex table equals the
one used to map oracle results back — 6 decimal digits at both sites of the
high-precision path and 4 at all three sites of the legacy path — and in
each path two raw indices get the same canonical index iff their quantized
key strings are identical. -/
theorem quantization_consistency :
    hpKeyEncode = hpKeyDecode
    ∧ legacyKeyEncode = legacyKeyBuild
    ∧ legacyKeyBuild = legacyKeyExpand
    ∧ (∀ (pos : List Pos) (i j : Nat) (p q : Pos),
        pos[i]? = some p → pos[j]? = some q →
        (forwardMap pos i = forwardMap pos j ↔ hpKeyEncode p = hpKeyEncode q))
    ∧ (∀ (pos : List Pos) (i j : Nat) (p q : Pos),
        pos[i]? = some p → pos[j]? = some q →
        (legacyForwardMap pos i = legacyForwardMap pos j
          ↔ legacyKeyEncode p = legacyKeyEncode q)) := by
  refine ⟨rfl, rfl, rfl, ?_, ?_⟩
  · intro pos i j p q hp hq
    have hpm : p ∈ pos := by
      obtain ⟨h1, h2⟩ := List.getElem?_eq_some.mp hp
      rw [← h2]
      exact List.getElem_mem h1
    have hqm : q ∈ pos := by
      obtain ⟨h1, h2⟩ := List.getElem?_eq_some.mp hq
      rw [← h2]
      exact List.getElem_mem h1
    unfold forwardMap
    rw [hp, hq]
    exact buildU_lookup_inj hpKeyEncode pos hpm hqm
  · intro pos i j p q hp hq
    have hpm : p ∈ pos := by
      obtain ⟨h1, h2⟩ := List.getElem?_eq_some.mp hp
      rw [← h2]
      exact List.getElem_mem h1
    have hqm : q ∈ pos := by
      obtain ⟨h1, h2⟩ := List.getElem?_eq_some.mp hq
      rw [← h2]
      exact List.getElem_mem h1
    unfold legacyForwardMap
    rw [hp, hq]
    exact buildU_lookup_inj legacyKeyEncode pos hpm hqm

/-- C7 witness: raw indices 0 and 1 of `posW` are coincident, and indeed
their canonical indices agree iff their keys agree. -/
theorem quantization_consistency_witness :
    forwardMap posW 0 = forwardMap posW 1
      ↔ hpKeyEncode ((0 : ℚ), (0 : ℚ), (0 : ℚ))
          = hpKeyEncode ((0 : ℚ), (0 : ℚ), (0 : ℚ)) :=
  quantization_consistency.2.2.2.1 posW 0 1
    ((0 : ℚ), (0 : ℚ), (0 : ℚ)) ((0 : ℚ), (0 : ℚ), (0 : ℚ)) (by decide) (by decide)

/-- C1 counterexample: with a single raw vertex, `reverseMap[0] = [0]`; the
oracle list `[0, 0]` repeats canonical index 0 and the expanded raw-index
list contains raw index 0 twice, not exactly once. -/
theorem expandRegion_duplicates_counterexample :
    revGetI (revMapOf posSingle) 0 = some [0]
    ∧ expandRegion (revGetI (revMapOf posSingle)) [0, 0] = [0, 0]
    ∧ (expandRegion (revGetI (revMapOf posSingle)) [0, 0]).count 0 ≠ 1 := by
  refine ⟨by decide, by decide, by decide⟩

/-- C1 amended: if a canonical index `c` appears EXACTLY ONCE in a region
list returned by the oracle, then every raw index of `reverseMap[c]` appears
exactly once in the region expanded raw-index list.  (In general a raw index
appears once per occurrence of its canonical index: the code appends
`reverseMap[c]` wholesale for each occurrence, so a repeated `c` duplicates
its raw indices — see the counterexample.) -/
theorem expandRegion_dup_per_occurrence (pos : List Pos) (idxs : List Int)
    (c : Int) (l : List Nat) (r : Nat)
    (hcount : idxs.count c = 1)
    (hentry : revGetI (revMapOf pos) c = some l)
    (hr : r ∈ l) :
    (expandRegion (revGetI (revMapOf pos)) idxs).count r = 1 := by
  have hc : 0 ≤ c := by
    by_contra hneg
    unfold revGetI at hentry
    rw [if_neg hneg] at hentry
    exact Option.noConfusion hentry
  have hfl : revMapOf pos c.toNat = some l := by
    unfold revGetI at hentry
    rw [if_pos hc] at hentry
    exact hentry
  have hl : l = (List.range pos.length).filter
      (fun i => forwardMap pos i = some c.toNat) := by
    unfold revMapOf at hfl
    rw [buildReverseMapping_eq] at hfl
    by_cases hemp : (List.range pos.length).filter
        (fun i => forwardMap pos i = some c.toNat) = []
    · rw [if_pos hemp] at hfl
      exact Option.noConfusion hfl
    · rw [if_neg hemp] at hfl
      injection hfl with hfl
      exact hfl.symm
  have hrmem := hr
  rw [hl, List.mem_filter] at hrmem
  have hrn : r < pos.length := List.mem_range.mp hrmem.1
  have hfr : forwardMap pos r = some c.toNat := by
    have := hrmem.2
    simpa using this
  rw [count_expandRegion]
  have hpt : ∀ c' ∈ idxs, ((revGetI (revMapOf pos) c').getD []).count r
      = if c' = c then 1 else 0 :=
    fun c' _ => count_entry pos c' r c hc hfr hrn
  rw [List.map_congr_left hpt, sum_map_ite_eq_count c idxs, hcount]

/-- C1 witness: when canonical index 0 appears once, raw index 0 appears
exactly once in the expansion. -/
theorem expandRegion_dup_witness :
    (expandRegion (revGetI (revMapOf posSingle)) [0]).count 0 = 1 :=
  expandRegion_dup_per_occurrence posSingle [0] 0 [0] 0
    (by decide) (by decide) (by decide)

/-- C8 amended: in the high-precision path an oracle index outside
`[0, uniqueCount)` has no reverse-map entry, and an index with no entry is
skipped — expansion continues with the remaining indices and cannot throw
(it is a total function).  In the legacy path, NON-NEGATIVE out-of-range
indices are skipped and painting succeeds, but a negative oracle index
throws a TypeError (see the counterexample), so the claim as stated fails
there. -/
theorem expansion_skip_behavior :
    (∀ (pos : List Pos) (c : Int),
      ¬ (0 ≤ c ∧ c.toNat < uniqueCount pos) → revGetI (revMapOf pos) c = none)
    ∧ (∀ (revGet : Int → Option (List Nat)) (pre post : List Int) (c : Int),
        revGet c = none →
        expandRegion revGet (pre ++ c :: post) = expandRegion revGet (pre ++ post))
    ∧ (∀ (va : List Pos) (u2f : String → Option (List Nat)) (col : CColor)
        (idxs : List Int) (buf : List CColor),
        (∀ c ∈ idxs, 0 ≤ c) →
        ∃ buf', legacyPaintRegion va u2f col idxs buf = .ok buf') := by
  refine ⟨?_, ?_, ?_⟩
  · intro pos c h
    unfold revGetI
    by_cases hc : 0 ≤ c
    · rw [if_pos hc]
      have hge : uniqueCount pos ≤ c.toNat := by omega
      unfold revMapOf
      rw [buildReverseMapping_eq]
      have hemp : (List.range pos.length).filter
          (fun i => forwardMap pos i = some c.toNat) = [] := by
        rw [List.filter_eq_nil_iff]
        intro i _ hdec
        have hlt := forwardMap_lt (of_decide_eq_true hdec)
        omega
      rw [if_pos hemp]
    · rw [if_neg hc]
  · intro revGet pre post c h
    induction pre with
    | nil => simp [expandRegion, h]
    | cons x rest ih =>
      simp only [List.cons_append, expandRegion]
      exact congrArg (fun t => (revGet x).getD [] ++ t) ih
  · intro va u2f col idxs
    induction idxs with
    | nil => intro buf _; exact ⟨buf, rfl⟩
    | cons c rest ih =>
      intro buf h
      have hc : 0 ≤ c := h c (List.mem_cons_self _ _)
      have hrest : ∀ x ∈ rest, 0 ≤ x := fun x hx => h x (List.mem_cons_of_mem _ hx)
      by_cases h1 : c < (va.length : Int)
      · have h2 : ¬ c < 0 := by omega
        simp only [legacyPaintRegion, if_pos h1, if_neg h2]
        exact ih _ hrest
      · simp only [legacyPaintRegion, if_neg h1]
        exact ih _ hrest

/-- C8 counterexample: a negative oracle index in the legacy path passes the
`backendIdx < vertArray.length` guard, `vertArray[backendIdx]` is undefined,
and reading its first coordinate throws. -/
theorem legacy_negative_index_counterexample :
    legacyPaintRegion (legacyVertArray posSingle) (uniqueToFullOf posSingle)
      (CColor.ofNum 0) [-1] [CColor.ofNum 0x808080] = .error "TypeError" := by
  rfl

theorem readWord32_eq_none (buf : List Nat) (off : Nat) (h : buf.length < off + 4) :
    readWord32 buf off = none := by
  unfold readWord32
  cases h0 : buf[off]? with
  | none => rfl
  | some a =>
    cases h1 : buf[off+1]? with
    | none => rfl
    | some b =>
      cases h2 : buf[off+2]? with
      | none => rfl
      | some c =>
        rw [List.getElem?_eq_none (by omega : buf.length ≤ off + 3)]

theorem readWord32_isSome (buf : List Nat) (off : Nat) (h : off + 4 ≤ buf.length) :
    (readWord32 buf off).isSome = true := by
  unfold readWord32
  rw [List.getElem?_eq_getElem (by omega : off < buf.length),
    List.getElem?_eq_getElem (by omega : off + 1 < buf.length),
    List.getElem?_eq_getElem (by omega : off + 2 < buf.length),
    List.getElem?_eq_getElem (by omega : off + 3 < buf.length)]
  rfl

theorem readVec3_isSome (buf : List Nat) (off : Nat) (h : off + 12 ≤ buf.length) :
    (readVec3 buf off).isSome = true := by
  unfold readVec3
  obtain ⟨a, ha⟩ := Option.isSome_iff_exists.mp (readWord32_isSome buf off (by omega))
  obtain ⟨b, hb⟩ := Option.isSome_iff_exists.mp (readWord32_isSome buf (off+4) (by omega))
  obtain ⟨c, hc⟩ := Option.isSome_iff_exists.mp (readWord32_isSome buf (off+8) (by omega))
  rw [ha, hb, hc]
  rfl

theorem readVec3_eq_none (buf : List Nat) (off : Nat) (h : buf.length < off + 12) :
    readVec3 buf off = none := by
  unfold readVec3
  cases h0 : readWord32 buf off with
  | none => rfl
  | some a =>
    cases h1 : readWord32 buf (off+4) with
    | none => rfl
    | some b =>
      rw [readWord32_eq_none buf (off+8) (by omega)]

theorem parseTriangles_ok (buf : List Nat) :
    ∀ (k off : Nat), (k = 0 ∨ off + 50 * k ≤ buf.length + 2) →
      ∃ v, parseTriangles buf off k = .ok v := by
  intro k
  induction k with
  | zero => intro off _; exact ⟨([], []), rfl⟩
  | succ k ih =>
    intro off h
    have hlen : off + 50 * (k + 1) ≤ buf.length + 2 := by
      rcases h with h | h
      · omega
      · exact h
    obtain ⟨n3, hn3⟩ := Option.isSome_iff_exists.mp (readVec3_isSome buf off (by omega))
    obtain ⟨a, ha⟩ := Option.isSome_iff_exists.mp
      (readVec3_isSome buf (off+12) (by omega))
    obtain ⟨b, hb⟩ := Option.isSome_iff_exists.mp
      (readVec3_isSome buf (off+24) (by omega))
    obtain ⟨c, hc⟩ := Option.isSome_iff_exists.mp
      (readVec3_isSome buf (off+36) (by omega))
    obtain ⟨v, hv⟩ := ih (off + 50) (by omega)
    obtain ⟨vs, ns⟩ := v
    have hunfold : parseTriangles buf off (k+1) =
        match readVec3 buf off, readVec3 buf (off+12), readVec3 buf (off+24),
            readVec3 buf (off+36) with
        | some nrm, some a', some b', some c' =>
          match parseTriangles buf (off + 50) k with
          | .ok (vs', ns') =>
            .ok (tripleFlat a' ++ tripleFlat b' ++ tripleFlat c' ++ vs',
              tripleFlat nrm ++ tripleFlat nrm ++ tripleFlat nrm ++ ns')
          | .error e => .error e
        | _, _, _, _ => .error STLError.truncated := rfl
    rw [hunfold, hn3, ha, hb, hc, hv]
    exact ⟨_, rfl⟩

theorem parseTriangles_not_ok (buf : List Nat) :
    ∀ (k off : Nat), ¬ (k = 0 ∨ off + 50 * k ≤ buf.length + 2) →
      parseTriangles buf off k = .error STLError.truncated := by
  intro k
  induction k with
  | zero => intro off h; exact absurd (Or.inl rfl) h
  | succ k ih =>
    intro off h
    push_neg at h
    have hlen : buf.length + 2 < off + 50 * (k + 1) := by omega
    have hunfold : parseTriangles buf off (k+1) =
        match readVec3 buf off, readVec3 buf (off+12), readVec3 buf (off+24),
            readVec3 buf (off+36) with
        | some nrm, some a', some b', some c' =>
          match parseTriangles buf (off + 50) k with
          | .ok (vs', ns') =>
            .ok (tripleFlat a' ++ tripleFlat b' ++ tripleFlat c' ++ vs',
              tripleFlat nrm ++ tripleFlat nrm ++ tripleFlat nrm ++ ns')
          | .error e => .error e
        | _, _, _, _ => .error STLError.truncated := rfl
    rw [hunfold]
    by_cases h48 : off + 48 ≤ buf.length
    · obtain ⟨n3, hn3⟩ := Option.isSome_iff_exists.mp
        (readVec3_isSome buf off (by omega))
      obtain ⟨a, ha⟩ := Option.isSome_iff_exists.mp
        (readVec3_isSome buf (off+12) (by omega))
      obtain ⟨b, hb⟩ := Option.isSome_iff_exists.mp
        (readVec3_isSome buf (off+24) (by omega))
      obtain ⟨c, hc⟩ := Option.isSome_iff_exists.mp
        (readVec3_isSome buf (off+36) (by omega))
      have hrec := ih (off + 50) (by omega)
      rw [hn3, ha, hb, hc, hrec]
    · have h36 : readVec3 buf (off+36) = none := readVec3_eq_none buf (off+36) (by omega)
      cases h0 : readVec3 buf off with
      | none => rfl
      | some x =>
        cases h1 : readVec3 buf (off+12) with
        | none => rfl
        | some y =>
          cases h2 : readVec3 buf (off+24) with
          | none => rfl
          | some z =>
            rw [h36]

/-- C3 amended: the decoder fails with the format error exactly on the
`solid` leading signature, and with a truncation error when the buffer lacks
the bytes the decoder actually READS — fewer than 84 header bytes, or fewer
than `84 + 50·count − 2` bytes for `count ≥ 1`.  The trailing 2-byte
attribute field of the LAST triangle is skipped without being read, so a
buffer up to 2 bytes shorter than the size the declared count implies still
parses successfully (see the counterexample); otherwise it produces the raw
vertex and normal word buffers. -/
theorem parseSTL_error_contract (buf : List Nat) :
    (buf.length < 5 → parseSTL buf = .error .truncated)
    ∧ (5 ≤ buf.length → buf.take 5 = solidBytes → parseSTL buf = .error .format)
    ∧ (5 ≤ buf.length → buf.take 5 ≠ solidBytes → buf.length < 84 →
        parseSTL buf = .error .truncated)
    ∧ (∀ count, buf.take 5 ≠ solidBytes → readWord32 buf 80 = some count →
        ((parseSTL buf).isOk = true ↔ (count = 0 ∨ 84 + 50 * count ≤ buf.length + 2)))
    ∧ (∀ count, buf.take 5 ≠ solidBytes → readWord32 buf 80 = some count →
        ¬ (count = 0 ∨ 84 + 50 * count ≤ buf.length + 2) →
        parseSTL buf = .error .truncated) := by
  refine ⟨?_, ?_, ?_, ?_, ?_⟩
  · intro h
    unfold parseSTL
    rw [if_pos h]
  · intro h5 hsolid
    unfold parseSTL
    rw [if_neg (by omega), if_pos hsolid]
  · intro h5 hsolid h84
    unfold parseSTL
    rw [if_neg (by omega), if_neg hsolid, readWord32_eq_none buf 80 (by omega)]
  · intro count hsolid hcount
    have h84 : 84 ≤ buf.length := by
      by_contra hlt
      rw [readWord32_eq_none buf 80 (by omega)] at hcount
      exact Option.noConfusion hcount
    unfold parseSTL
    rw [if_neg (by omega), if_neg hsolid, hcount]
    show (parseTriangles buf 84 count).isOk = true ↔ _
    constructor
    · intro hok
      by_contra hn
      rw [parseTriangles_not_ok buf count 84 hn] at hok
      simp [Except.isOk, Except.toBool] at hok
    · intro hcond
      obtain ⟨v, hv⟩ := parseTriangles_ok buf count 84 hcond
      rw [hv]
      rfl
  · intro count hsolid hcount hn
    have h84 : 84 ≤ buf.length := by
      by_contra hlt
      rw [readWord32_eq_none buf 80 (by omega)] at hcount
      exact Option.noConfusion hcount
    unfold parseSTL
    rw [if_neg (by omega), if_neg hsolid, hcount]
    show parseTriangles buf 84 count = .error STLError.truncated
    exact parseTriangles_not_ok buf count 84 hn

/-- C3 counterexample: `buf132` declares one triangle, which implies
`84 + 50 = 134` bytes, more than the 132 present; the claim then demands a
truncation failure, but parsing succeeds because the decoder never reads the
final 2-byte attribute field. -/
theorem parseSTL_truncation_counterexample :
    buf132.length = 132
    ∧ readWord32 buf132 80 = some 1
    ∧ buf132.take 5 ≠ solidBytes
    ∧ (parseSTL buf132).isOk = true := by
  refine ⟨by decide, by decide, by decide, by decide⟩

/-- C3 witness: the amended trichotomy applied to the 132-byte buffer (the
parse succeeds since `84 + 50·1 ≤ 132 + 2`) and to the empty buffer (header
truncation). -/
theorem parseSTL_error_contract_witness :
    ((parseSTL buf132).isOk = true ↔ (1 = 0 ∨ 84 + 50 * 1 ≤ buf132.length + 2))
    ∧ parseSTL [] = .error .truncated :=
  ⟨(parseSTL_error_contract buf132).2.2.2.1 1 (by decide) (by decide),
    (parseSTL_error_contract []).1 (by decide)⟩

/-- C4: every failure of the upload pipeline — STL parse error, transport
failure, non-ok HTTP status, unparsable JSON, oracle-reported failure
(`success: false`), or malformed response (missing `regions`) — leaves the
region list, painted overrides, model data (hence the loaded geometry and
its color buffer) and selection exactly as they were before the upload. -/
theorem upload_failure_frame (f : FileInput) (fetch : FetchOutcome) (st : AppState)
    (hfail : (∃ e, f.parsed = .error e)
      ∨ fetch = .netError
      ∨ (∃ s, fetch = .httpError s)
      ∨ fetch = .badJson
      ∨ (∃ rs err, fetch = .ok false rs err)
      ∨ (∃ err, fetch = .ok true none err)) :
    (handleFileUpload (some f) fetch st).regions = st.regions
    ∧ (handleFileUpload (some f) fetch st).paintedColors = st.paintedColors
    ∧ (handleFileUpload (some f) fetch st).modelData = st.modelData
    ∧ (handleFileUpload (some f) fetch st).selectedRegion = st.selectedRegion := by
  rcases hfail with ⟨e, he⟩ | hnet | ⟨s, hs⟩ | hbad | ⟨rs, err, hok⟩ | ⟨err, hok⟩
  · cases e <;> simp [handleFileUpload, he]
  · subst hnet
    cases hp : f.parsed with
    | error e => cases e <;> simp [handleFileUpload, hp]
    | ok pos => simp [handleFileUpload, hp, segmentWithBackend]
  · subst hs
    cases hp : f.parsed with
    | error e => cases e <;> simp [handleFileUpload, hp]
    | ok pos => simp [handleFileUpload, hp, segmentWithBackend]
  · subst hbad
    cases hp : f.parsed with
    | error e => cases e <;> simp [handleFileUpload, hp]
    | ok pos => simp [handleFileUpload, hp, segmentWithBackend]
  · subst hok
    cases hp : f.parsed with
    | error e => cases e <;> simp [handleFileUpload, hp]
    | ok pos => simp [handleFileUpload, hp, segmentWithBackend]
  · subst hok
    cases hp : f.parsed with
    | error e => cases e <;> simp [handleFileUpload, hp]
    | ok pos => simp [handleFileUpload, hp, segmentWithBackend]

/-- C4 witness: a transport failure while `stW` holds a loaded painted model
leaves regions, overrides, model data and selection untouched. -/
theorem upload_failure_frame_witness :
    (handleFileUpload (some fileW) FetchOutcome.netError stW).regions = stW.regions
    ∧ (handleFileUpload (some fileW) FetchOutcome.netError stW).paintedColors
        = stW.paintedColors
    ∧ (handleFileUpload (some fileW) FetchOutcome.netError stW).modelData = stW.modelData
    ∧ (handleFileUpload (some fileW) FetchOutcome.netError stW).selectedRegion
        = stW.selectedRegion :=
  upload_failure_frame fileW FetchOutcome.netError stW (Or.inr (Or.inl rfl))

/-- C8 witness: a too-large index has no entry and is skipped; expansion of
the remaining indices proceeds; legacy painting succeeds on non-negative
indices. -/
theorem expansion_skip_behavior_witness :
    revGetI (revMapOf posSingle) 5 = none
    ∧ expandRegion (revGetI (revMapOf posSingle)) ([0] ++ 5 :: [])
        = expandRegion (revGetI (revMapOf posSingle)) ([0] ++ [])
    ∧ ∃ buf', legacyPaintRegion (legacyVertArray posSingle) (uniqueToFullOf posSingle)
        (CColor.ofNum 0) [0] [CColor.ofNum 0x808080] = .ok buf' :=
  ⟨expansion_skip_behavior.1 posSingle 5 (by decide),
    expansion_skip_behavior.2.1 (revGetI (revMapOf posSingle)) [0] [] 5 (by decide),
    expansion_skip_behavior.2.2 (legacyVertArray posSingle) (uniqueToFullOf posSingle)
      (CColor.ofNum 0) [0] [CColor.ofNum 0x808080] (by decide)⟩

/-- C2: the compositor fills every raw index with the default gray
`0x808080`, then iterates regions in stable list order; each visible region
overwrites its raw indices with the override color if one is present,
otherwise its base color; invisible regions leave the buffer untouched; on
overlap the region latest in list order determines the final color. -/
theorem compositor_spec (n : Nat) (regions : List PaintRegion)
    (painted : String → Option String)
    (hp : ∀ id, painted id ≠ some "") :
    (compositor n regions painted).length = n
    ∧ ∀ i, i < n →
      (compositor n regions painted)[i]? =
        some (match lastVisibleCovering i regions with
          | some r => CColor.ofStyle ((painted r.id).getD r.color)
          | none => CColor.ofNum 0x808080) := by
  refine ⟨compositor_length n regions painted, ?_⟩
  intro i hi
  unfold compositor
  rw [foldl_applyRegion_getElem? n painted regions
    (List.replicate n (CColor.ofNum 0x808080)) (List.length_replicate n _) i hi]
  cases hlv : lastVisibleCovering i regions with
  | some r =>
    simp only []
    unfold resolvedColor
    rw [jsOr_eq_getD _ _ (hp r.id)]
  | none =>
    simp only [List.getElem?_replicate, hi, if_true]

/-- C2 witness: with overlapping regions red (overridden to gold) then
green, index 1 gets green (later region wins) and index 0 gets the gold
override. -/
theorem compositor_spec_witness :
    (compositor 2 regionsW paintedW)[1]? = some (CColor.ofStyle "#00ff00")
    ∧ (compositor 2 regionsW paintedW)[0]? = some (CColor.ofStyle "#ffd700") :=
  ⟨((compositor_spec 2 regionsW paintedW paintedW_ne_empty).2 1 (by decide)).trans
      (by decide),
    ((compositor_spec 2 regionsW paintedW paintedW_ne_empty).2 0 (by decide)).trans
      (by decide)⟩

/-- C9 (code bug evaluation): at the failing state — a model is loaded and
a segmentation request is outstanding (`isLoading = true`) — the overlay
upload input is disabled, but the New Model upload input is not: it carries
no disabled attribute at all. -/
theorem upload_controls_disabled_eval :
    uploadOverlayInputDisabled true BackendStatus.online = true
    ∧ newModelInputDisabled true BackendStatus.online = false :=
  ⟨rfl, rfl⟩

/-- C10: toggling visibility of `regionId` flips exactly the `visible` flag
of the matching region(s): id, name, color, vertex indices, count and
percentage are unchanged, regions with a different id are entirely
unchanged, and the painted-override map is untouched. -/
theorem toggle_visibility_frame :
    ∀ (regions : List PaintRegion) (regionId : String),
      (toggleRegionVisibility regionId regions).length = regions.length
      ∧ (∀ (k : Nat) (r r' : PaintRegion), regions[k]? = some r →
          (toggleRegionVisibility regionId regions)[k]? = some r' →
          r'.id = r.id ∧ r'.name = r.name ∧ r'.color = r.color
          ∧ r'.vertex_indices = r.vertex_indices
          ∧ r'.vertex_count = r.vertex_count
          ∧ r'.vertex_percentage = r.vertex_percentage
          ∧ r'.visible = (if r.id = regionId then !r.visible else r.visible))
      ∧ (∀ st : AppState,
          (toggleRegionVisibilityState regionId st).paintedColors = st.paintedColors) := by
  intro regions regionId
  refine ⟨List.length_map regions _, ?_, fun st => rfl⟩
  intro k r r' hr hr'
  unfold toggleRegionVisibility at hr'
  rw [List.getElem?_map, hr] at hr'
  simp only [Option.map_some'] at hr'
  have hr'' : r' = if r.id = regionId then { r with visible := !r.visible } else r :=
    (Option.some.injEq _ _ ▸ hr').symm
  by_cases h : r.id = regionId
  · rw [hr'']
    simp [h]
  · rw [hr'']
    simp [h]

theorem legacyLoop_rand_irrelevant (rand₁ rand₂ : Nat → ℚ) (va : List Pos)
    (u2f : String → Option (List Nat)) :
    ∀ (regions : List (String × List Int)),
      (∀ e ∈ regions, (regionColorMap e.1).isSome = true) →
      ∀ (k₁ k₂ : Nat) (buf : List CColor),
        legacyLoop rand₁ va u2f regions k₁ buf
          = legacyLoop rand₂ va u2f regions k₂ buf := by
  intro regions
  induction regions with
  | nil => intro _ k₁ k₂ buf; rfl
  | cons e rest ih =>
    intro h k₁ k₂ buf
    obtain ⟨id, idxs⟩ := e
    have hs : (regionColorMap id).isSome = true := h (id, idxs) (List.mem_cons_self _ _)
    obtain ⟨col, hcol⟩ := Option.isSome_iff_exists.mp hs
    show legacyLoop rand₁ va u2f ((id, idxs) :: rest) k₁ buf = _
    simp only [legacyLoop, hcol]
    cases hp : legacyPaintRegion va u2f col idxs buf with
    | ok buf' => exact ih (fun e he => h e (List.mem_cons_of_mem _ he)) k₁ k₂ buf'
    | error e' => rfl

/-- C6 amended: the high-precision compositor is idempotent and a pure
function of the position-buffer length, region list and overrides (it never
reads the previous color attribute); the legacy coloring step is
deterministic only when every region id is one of the five ids in its fixed
color table — an unknown id draws its color from `Math.random()`. -/
theorem compositor_determinism :
    (∀ (g : Geometry) (regions : List PaintRegion) (painted : String → Option String),
      applyColorsToGeometry (applyColorsToGeometry g regions painted) regions painted
        = applyColorsToGeometry g regions painted)
    ∧ (∀ (g₁ g₂ : Geometry) (regions : List PaintRegion)
        (painted : String → Option String),
        g₁.positions = g₂.positions →
        (applyColorsToGeometry g₁ regions painted).colorAttr
          = (applyColorsToGeometry g₂ regions painted).colorAttr)
    ∧ (∀ (rand₁ rand₂ : Nat → ℚ) (n : Nat) (va : List Pos)
        (u2f : String → Option (List Nat)) (regions : List (String × List Int)),
        (∀ e ∈ regions, (regionColorMap e.1).isSome = true) →
        legacyColors rand₁ n va u2f regions = legacyColors rand₂ n va u2f regions) := by
  refine ⟨fun g regions painted => rfl, ?_, ?_⟩
  · intro g₁ g₂ regions painted h
    unfold applyColorsToGeometry
    simp [h]
  · intro rand₁ rand₂ n va u2f regions h
    unfold legacyColors
    exact legacyLoop_rand_irrelevant rand₁ rand₂ va u2f regions h 0 0 _

/-- C6 counterexample: the legacy coloring step run twice on identical
inputs — same buffer length, same region list, no overrides or visibility
involved — yields different buffers for two runs of `Math.random()`, because
the region id `cape` is not in the fixed legacy color table. -/
theorem legacy_random_counterexample :
    legacyColors randZero 1 (legacyVertArray posSingle) (uniqueToFullOf posSingle)
        legacyRegionsW
      ≠ legacyColors randOne 1 (legacyVertArray posSingle) (uniqueToFullOf posSingle)
        legacyRegionsW := by
  have h₁ : legacyColors randZero 1 (legacyVertArray posSingle)
      (uniqueToFullOf posSingle) legacyRegionsW
      = .ok [CColor.ofNum (randZero 0 * 0xffffff)] := rfl
  have h₂ : legacyColors randOne 1 (legacyVertArray posSingle)
      (uniqueToFullOf posSingle) legacyRegionsW
      = .ok [CColor.ofNum (randOne 0 * 0xffffff)] := rfl
  rw [h₁, h₂]
  intro h
  simp only [Except.ok.injEq, List.cons.injEq, CColor.ofNum.injEq, and_true] at h
  have h' : (0 : ℚ) * 0xffffff = 1 * 0xffffff := h
  norm_num at h'

/-- C6 witness: purity at concrete inputs — the result does not depend on a
stale color attribute, and the legacy step is reproducible when the region
id is in the fixed table. -/
theorem compositor_determinism_witness :
    (applyColorsToGeometry geomW regionsW paintedW).colorAttr
      = (applyColorsToGeometry geomW2 regionsW paintedW).colorAttr
    ∧ legacyColors randZero 1 (legacyVertArray posSingle) (uniqueToFullOf posSingle)
        [("legs", [0])]
      = legacyColors randOne 1 (legacyVertArray posSingle) (uniqueToFullOf posSingle)
        [("legs", [0])] :=
  ⟨compositor_determinism.2.1 geomW geomW2 regionsW paintedW rfl,
    compositor_determinism.2.2 randZero randOne 1 (legacyVertArray posSingle)
      (uniqueToFullOf posSingle) [("legs", [0])] (by decide)⟩

/-- C10 witness: toggling id `a` in a one-region list flips the flag and
keeps every other field. -/
theorem toggle_visibility_frame_witness :
    regionAToggled.id = regionA.id ∧ regionAToggled.name = regionA.name
    ∧ regionAToggled.color = regionA.color
    ∧ regionAToggled.vertex_indices = regionA.vertex_indices
    ∧ regionAToggled.vertex_count = regionA.vertex_count
    ∧ regionAToggled.vertex_percentage = regionA.vertex_percentage
    ∧ regionAToggled.visible = (if regionA.id = "a" then !regionA.visible else regionA.visible) :=
  (toggle_visibility_frame [regionA] "a").2.1 0 regionA regionAToggled
    (by decide) (by decide)
